import Mathlib

/-!
Verification of the nalu-wind Hypre linear-system assembly layer.

The development shallowly embeds the data model and operations of:
* the CUDA `MatrixAssembler` / `MemoryController` declared in
  `LinearSystemAssembler.h` (COO ingestion, bin-sort-reduce assembly to CSR,
  diagonal-first `reorderDLU` / natural-order `reorderLDU`),
* the `HypreLinearSystem` / `HypreLinSysCoeffApplier` accumulation layer
  declared in `HypreLinearSystem.h` (skipped-row filtering in `sum_into`,
  partitioned slot claiming, capacity accounting `numDataPtsToAssemble`),
* `HypreUVWLinearSystem::numDof`.

The repository ships only the class declarations for the device-side assembly
kernels; where a member function's body is absent, the corresponding Lean
definition is marked `Modelled from the spec:` and follows the specification
text.  Machine `double` values are modelled in exact arithmetic: definitions
are generic over an additive commutative monoid `V` of values (concrete
witnesses instantiate `V := Int`), which captures the spec's idealized
"mathematically exact sum" semantics while leaving IEEE rounding out of scope.
-/

namespace NaluWind

/-- A coordinate-format contribution `(row, col, value)`; the staged content of
the `rows_` / `cols_` / `vals_` lists of `HypreLinSysCoeffApplier`. -/
structure CooEntry (V : Type) where
  row : Int
  col : Int
  val : V
deriving DecidableEq, Repr

variable {V : Type}

/-- Modelled from the spec: the bin of one row — the ingested entries whose
destination bin (their row) is `r`, in arrival order (`MatrixAssembler::assemble`,
symbolic phase binning; the body of `assemble` is not in the repository
sources). -/
def rowEntries (es : List (CooEntry V)) (r : Int) : List (CooEntry V) :=
  es.filter (fun e => e.row == r)

/-- Modelled from the spec: the unique column set of row `r`, sorted ascending
(`MatrixAssembler::assemble` symbolic phase: sort within each bin by column id,
deduplicate). -/
def rowCols (es : List (CooEntry V)) (r : Int) : List Int :=
  List.insertionSort (· ≤ ·) ((rowEntries es r).map CooEntry.col).dedup

/-- Modelled from the spec: the numeric value assembled into CSR slot `(r, c)` —
the sum of all contributions to that coordinate pair, duplicates folded by
summation (`MatrixAssembler::assemble`, numeric phase). -/
def cellValue [AddCommMonoid V] (es : List (CooEntry V)) (r c : Int) : V :=
  ((es.filter (fun e => e.row == r && e.col == c)).map CooEntry.val).sum

/-- Modelled from the spec: one assembled CSR row slice — the sorted unique
columns of row `r` paired with their reduced values. -/
def assembleRow [AddCommMonoid V] (es : List (CooEntry V)) (r : Int) :
    List (Int × V) :=
  (rowCols es r).map (fun c => (c, cellValue es r c))

/-- The owned row range `[r0, r0 + numRows)` of the assembler
(`MatrixAssembler` constructor arguments `r0`, `num_rows`). -/
def rowList (r0 : Int) (numRows : Nat) : List Int :=
  (List.range numRows).map (fun i : Nat => r0 + (i : Int))

/-- Modelled from the spec: `MatrixAssembler::assemble` — bin the ingested
coordinate entries by row, sort each bin by column, fold duplicate `(row,col)`
pairs by summation.  The result is the per-row slice view of the CSR matrix. -/
def assemble [AddCommMonoid V] (r0 : Int) (numRows : Nat)
    (es : List (CooEntry V)) : List (Int × List (Int × V)) :=
  (rowList r0 numRows).map (fun r => (r, assembleRow es r))

theorem cellValue_perm [AddCommMonoid V] {es es' : List (CooEntry V)}
    (h : List.Perm es es') (r c : Int) : cellValue es r c = cellValue es' r c :=
  List.Perm.sum_eq (List.Perm.map _ (List.Perm.filter _ h))

theorem rowCols_perm [AddCommMonoid V] {es es' : List (CooEntry V)}
    (h : List.Perm es es') (r : Int) : rowCols es r = rowCols es' r := by
  apply List.eq_of_perm_of_sorted (r := (· ≤ ·))
  · exact ((List.perm_insertionSort _ _).trans
      ((List.Perm.map _ (List.Perm.filter _ h)).dedup)).trans
      (List.perm_insertionSort _ _).symm
  · exact List.sorted_insertionSort _ _
  · exact List.sorted_insertionSort _ _

theorem assembleRow_perm [AddCommMonoid V] {es es' : List (CooEntry V)}
    (h : List.Perm es es') (r : Int) : assembleRow es r = assembleRow es' r := by
  unfold assembleRow
  rw [rowCols_perm h]
  exact List.map_congr_left (fun c _ => by rw [cellValue_perm h])

theorem mem_rowCols_of_entry [AddCommMonoid V] {es : List (CooEntry V)}
    {e : CooEntry V} (he : e ∈ es) : e.col ∈ rowCols es e.row := by
  unfold rowCols
  rw [(List.perm_insertionSort _ _).mem_iff, List.mem_dedup]
  exact List.mem_map_of_mem _ (List.mem_filter.mpr ⟨he, by simp⟩)

/-- C1: after assembly, the CSR value at each `(row, col)` coordinate equals
the sum of all contributing values for that pair (duplicates summed, never
overwritten), and the assembled result is independent of the order in which
the entries were contributed. -/
theorem assemble_sums_duplicates_order_independent
    [AddCommMonoid V] (r0 : Int) (n : Nat) (es es' : List (CooEntry V))
    (hperm : List.Perm es es') (r c : Int) (hr : r ∈ rowList r0 n)
    (hrc : ∃ e ∈ es, e.row = r ∧ e.col = c) :
    assemble r0 n es = assemble r0 n es' ∧
    (r, assembleRow es r) ∈ assemble r0 n es ∧
    (c, ((es.filter (fun e => e.row == r && e.col == c)).map CooEntry.val).sum)
      ∈ assembleRow es r := by
  refine ⟨?_, ?_, ?_⟩
  · unfold assemble
    exact List.map_congr_left (fun r _ => by rw [assembleRow_perm hperm])
  · exact List.mem_map_of_mem _ hr
  · obtain ⟨e, he, her, hec⟩ := hrc
    have hc : c ∈ rowCols es r := by
      rw [← her, ← hec]; exact mem_rowCols_of_entry he
    exact List.mem_map_of_mem _ hc

/-- Witness for C1 at the spec's example scenario: ingesting
`(0,0,1), (0,1,2), (0,0,3)` assembles row 0 to `col_indices = [0,1]`,
`values = [4,2]`, and any reordering of the three contributions assembles to
the same matrix. -/
theorem assemble_sums_duplicates_order_independent_witness :
    (assemble 0 1 [⟨0, 0, (1 : Int)⟩, ⟨0, 1, 2⟩, ⟨0, 0, 3⟩]
      = [(0, [(0, 4), (1, 2)])]) ∧
    (assemble 0 1 [⟨0, 0, (1 : Int)⟩, ⟨0, 1, 2⟩, ⟨0, 0, 3⟩]
      = assemble 0 1 [⟨0, 0, 3⟩, ⟨0, 1, 2⟩, ⟨0, 0, 1⟩] ∧
     (0, assembleRow [⟨0, 0, (1 : Int)⟩, ⟨0, 1, 2⟩, ⟨0, 0, 3⟩] 0)
      ∈ assemble 0 1 [⟨0, 0, (1 : Int)⟩, ⟨0, 1, 2⟩, ⟨0, 0, 3⟩] ∧
     (0, (([⟨0, 0, (1 : Int)⟩, ⟨0, 1, 2⟩, ⟨0, 0, 3⟩].filter
          (fun e => e.row == 0 && e.col == 0)).map CooEntry.val).sum)
      ∈ assembleRow [⟨0, 0, (1 : Int)⟩, ⟨0, 1, 2⟩, ⟨0, 0, 3⟩] 0) :=
  ⟨by decide,
   assemble_sums_duplicates_order_independent 0 1
     [⟨0, 0, (1 : Int)⟩, ⟨0, 1, 2⟩, ⟨0, 0, 3⟩] [⟨0, 0, 3⟩, ⟨0, 1, 2⟩, ⟨0, 0, 1⟩]
     (by decide) 0 0 (by decide) (by decide)⟩

/-- The exported CSR triple (`MatrixAssembler::copyAssembledCSRMatrixToHost`):
`row_offsets` (length rows+1), `col_indices` and `values` (length = nnz). -/
structure CSRMatrix (V : Type) where
  row_offsets : List Nat
  col_indices : List Int
  values : List V
deriving DecidableEq, Repr

/-- Modelled from the spec: flatten the per-row slice view into the CSR triple
delivered to the host (`copyAssembledCSRMatrixToHost`; its body is not in the
repository sources).  `row_offsets` is the exclusive prefix sum of the row
slice lengths, starting at 0. -/
def copyAssembledCSRMatrixToHost (m : List (Int × List (Int × V))) :
    CSRMatrix V :=
  { row_offsets := List.scanl (· + ·) 0 (m.map (fun p => p.2.length))
    col_indices := (m.map (fun p => p.2.map Prod.fst)).flatten
    values := (m.map (fun p => p.2.map Prod.snd)).flatten }

/-- Modelled from the spec: `MatrixAssembler::getNumNonzeros` — the stored
`_num_nonzeros` count of the assembled CSR matrix, i.e. the common length of
the deduplicated `col_indices` / `values` arrays. -/
def getNumNonzeros (m : List (Int × List (Int × V))) : Nat :=
  (copyAssembledCSRMatrixToHost m).col_indices.length

/-- Modelled from the spec: one row of `MatrixAssembler::reorderDLU` — permute
the row's slice from `[L|D|U]` to `[D|L|U]`: the entry whose column equals the
row id is moved to the first slot, the remaining entries keep their relative
order. -/
def reorderDLUrow (r : Int) (slice : List (Int × V)) : List (Int × V) :=
  slice.filter (fun p => p.1 == r) ++ slice.filter (fun p => !(p.1 == r))

/-- Modelled from the spec: `MatrixAssembler::reorderDLU` — reorder every row
slice to diagonal-first (Hypre) format. -/
def reorderDLU (m : List (Int × List (Int × V))) :
    List (Int × List (Int × V)) :=
  m.map (fun p => (p.1, reorderDLUrow p.1 p.2))

/-- Modelled from the spec: one row of `MatrixAssembler::reorderLDU` — permute
the row's slice from `[D|L|U]` back to `[L|D|U]`: the leading diagonal entry
is reinserted at its natural ascending-column position. -/
def reorderLDUrow (_r : Int) (slice : List (Int × V)) : List (Int × V) :=
  match slice with
  | [] => []
  | d :: rest => List.orderedInsert (fun p q => p.1 ≤ q.1) d rest

/-- Modelled from the spec: `MatrixAssembler::reorderLDU` — restore every row
slice to natural ascending-column (standard CSR) format. -/
def reorderLDU (m : List (Int × List (Int × V))) :
    List (Int × List (Int × V)) :=
  m.map (fun p => (p.1, reorderLDUrow p.1 p.2))

theorem assembleRow_cols_eq [AddCommMonoid V] (es : List (CooEntry V))
    (r : Int) : (assembleRow es r).map Prod.fst = rowCols es r := by
  simp [assembleRow, List.map_map, Function.comp_def]

theorem rowCols_nodup [AddCommMonoid V] (es : List (CooEntry V)) (r : Int) :
    (rowCols es r).Nodup :=
  (List.Perm.nodup_iff (List.perm_insertionSort _ _)).mpr (List.nodup_dedup _)

theorem rowCols_sorted_lt [AddCommMonoid V] (es : List (CooEntry V))
    (r : Int) : List.Sorted (· < ·) (rowCols es r) :=
  List.Sorted.lt_of_le (List.sorted_insertionSort _ _) (rowCols_nodup es r)

/-- Decompose a row slice whose columns are strictly sorted and contain the
diagonal column `r` into `L ++ [diagonal] ++ U` with the lower entries
strictly below and the upper entries strictly above the diagonal. -/
theorem slice_decompose {slice : List (Int × V)} {r : Int}
    (hs : List.Sorted (· < ·) (slice.map Prod.fst))
    (hd : r ∈ slice.map Prod.fst) :
    ∃ A d B, slice = A ++ d :: B ∧ d.1 = r ∧
      (∀ a ∈ A, a.1 < r) ∧ (∀ b ∈ B, r < b.1) := by
  obtain ⟨d, hdmem, hdfst⟩ := List.mem_map.mp hd
  obtain ⟨A, B, rfl⟩ := List.append_of_mem hdmem
  refine ⟨A, d, B, rfl, hdfst, ?_, ?_⟩
  · intro a ha
    rw [List.map_append, List.map_cons] at hs
    have := (List.pairwise_append.mp hs).2.2 a.1 (List.mem_map_of_mem _ ha)
      d.1 (List.mem_cons_self _ _)
    rwa [hdfst] at this
  · intro b hb
    rw [List.map_append, List.map_cons] at hs
    have := List.rel_of_sorted_cons (List.pairwise_append.mp hs).2.1 b.1
      (List.mem_map_of_mem _ hb)
    rwa [hdfst] at this

theorem reorderDLUrow_eq {A B : List (Int × V)} {d : Int × V} {r : Int}
    (hdfst : d.1 = r) (hA : ∀ a ∈ A, a.1 < r) (hB : ∀ b ∈ B, r < b.1) :
    reorderDLUrow r (A ++ d :: B) = d :: (A ++ B) := by
  unfold reorderDLUrow
  have hAeq : ∀ a ∈ A, ¬(a.1 = r) := fun a ha => ne_of_lt (hA a ha)
  have hBeq : ∀ b ∈ B, ¬(b.1 = r) := fun b hb => ne_of_gt (hB b hb)
  rw [List.filter_append, List.filter_append, List.filter_cons, List.filter_cons]
  have h1 : List.filter (fun p => p.1 == r) A = [] := by
    rw [List.filter_eq_nil_iff]
    intro a ha; simpa using hAeq a ha
  have h2 : List.filter (fun p => p.1 == r) B = [] := by
    rw [List.filter_eq_nil_iff]
    intro b hb; simpa using hBeq b hb
  have h3 : List.filter (fun p => !(p.1 == r)) A = A := by
    rw [List.filter_eq_self]
    intro a ha; simpa using hAeq a ha
  have h4 : List.filter (fun p => !(p.1 == r)) B = B := by
    rw [List.filter_eq_self]
    intro b hb; simpa using hBeq b hb
  simp [h1, h2, h3, h4, hdfst]

theorem orderedInsert_append_of_lt {A B : List (Int × V)} {d : Int × V}
    (hA : ∀ a ∈ A, ¬(d.1 ≤ a.1)) :
    List.orderedInsert (fun p q => p.1 ≤ q.1) d (A ++ B)
      = A ++ List.orderedInsert (fun p q => p.1 ≤ q.1) d B := by
  induction A with
  | nil => rfl
  | cons a A ih =>
    have ha : ¬(d.1 ≤ a.1) := hA a (List.mem_cons_self _ _)
    simp only [List.cons_append, List.orderedInsert, if_neg ha, List.append_eq]
    rw [ih (fun x hx => hA x (List.mem_cons_of_mem _ hx))]

theorem orderedInsert_eq_cons_of_le {B : List (Int × V)} {d : Int × V}
    (hB : ∀ b ∈ B, d.1 ≤ b.1) :
    List.orderedInsert (fun p q => p.1 ≤ q.1) d B = d :: B := by
  cases B with
  | nil => rfl
  | cons b B =>
    simp only [List.orderedInsert, if_pos (hB b (List.mem_cons_self _ _))]

theorem reorderLDUrow_reorderDLUrow {slice : List (Int × V)} {r : Int}
    (hs : List.Sorted (· < ·) (slice.map Prod.fst))
    (hd : r ∈ slice.map Prod.fst) :
    reorderLDUrow r (reorderDLUrow r slice) = slice := by
  obtain ⟨A, d, B, rfl, hdfst, hA, hB⟩ := slice_decompose hs hd
  rw [reorderDLUrow_eq hdfst hA hB]
  show List.orderedInsert (fun p q => p.1 ≤ q.1) d (A ++ B) = A ++ d :: B
  rw [orderedInsert_append_of_lt
    (fun a ha => not_le_of_lt (hdfst ▸ hA a ha)),
    orderedInsert_eq_cons_of_le (fun b hb => le_of_lt (hdfst ▸ hB b hb))]

/-- C2: on an assembled CSR matrix in which every row has a diagonal entry,
the diagonal-first reordering `reorderDLU` followed by the diagonal-natural
reordering `reorderLDU` restores the original strictly ascending column order
and the identical values, row for row: the two reorders are exact inverses. -/
theorem reorderDLU_reorderLDU_roundtrip [AddCommMonoid V] (r0 : Int) (n : Nat)
    (es : List (CooEntry V))
    (hdiag : ∀ p ∈ assemble r0 n es, p.1 ∈ p.2.map Prod.fst) :
    reorderLDU (reorderDLU (assemble r0 n es)) = assemble r0 n es := by
  unfold reorderLDU reorderDLU
  rw [List.map_map]
  conv_rhs => rw [← List.map_id (assemble r0 n es)]
  apply List.map_congr_left
  intro p hp
  have hsort : List.Sorted (· < ·) (p.2.map Prod.fst) := by
    obtain ⟨r, _, rfl⟩ := List.mem_map.mp hp
    rw [assembleRow_cols_eq]
    exact rowCols_sorted_lt es r
  simp only [Function.comp_apply, id]
  rw [reorderLDUrow_reorderDLUrow hsort (hdiag p hp)]

/-- Witness for C2: a concrete two-row assembled matrix with diagonals in both
rows makes the `reorderDLU` / `reorderLDU` round trip the identity. -/
theorem reorderDLU_reorderLDU_roundtrip_witness :
    reorderLDU (reorderDLU (assemble 0 2
        [⟨0, 1, (2 : Int)⟩, ⟨0, 0, 1⟩, ⟨1, 0, 5⟩, ⟨1, 1, 3⟩]))
      = assemble 0 2 [⟨0, 1, (2 : Int)⟩, ⟨0, 0, 1⟩, ⟨1, 0, 5⟩, ⟨1, 1, 3⟩] :=
  reorderDLU_reorderLDU_roundtrip 0 2
    [⟨0, 1, (2 : Int)⟩, ⟨0, 0, 1⟩, ⟨1, 0, 5⟩, ⟨1, 1, 3⟩] (by decide)

theorem le_of_mem_scanl_add {l : List Nat} {b x : Nat}
    (hx : x ∈ List.scanl (· + ·) b l) : b ≤ x := by
  induction l generalizing b with
  | nil =>
    rw [List.scanl_nil, List.mem_singleton] at hx
    omega
  | cons a l ih =>
    rw [List.scanl_cons] at hx
    rcases List.mem_append.mp hx with h | h
    · rw [List.mem_singleton] at h; omega
    · have := ih h; omega

theorem sorted_scanl_add (b : Nat) (l : List Nat) :
    List.Sorted (· ≤ ·) (List.scanl (· + ·) b l) := by
  induction l generalizing b with
  | nil => simp [List.scanl_nil]
  | cons a l ih =>
    rw [List.scanl_cons]
    refine List.sorted_cons.mpr ⟨?_, by simpa using ih (b + a)⟩
    intro x hx
    exact le_trans (Nat.le_add_right b a) (le_of_mem_scanl_add hx)

theorem reorderDLUrow_head [AddCommMonoid V] {slice : List (Int × V)}
    {r : Int} (hd : r ∈ slice.map Prod.fst) :
    ((reorderDLUrow r slice).map Prod.fst).head? = some r := by
  obtain ⟨d, hdmem, hdfst⟩ := List.mem_map.mp hd
  have hdf : d ∈ slice.filter (fun p => p.1 == r) :=
    List.mem_filter.mpr ⟨hdmem, by simp [hdfst]⟩
  unfold reorderDLUrow
  cases hfe : slice.filter (fun p => p.1 == r) with
  | nil => rw [hfe] at hdf; exact absurd hdf (List.not_mem_nil d)
  | cons q t =>
    have hq : q ∈ slice.filter (fun p => p.1 == r) := by
      rw [hfe]; exact List.mem_cons_self _ _
    have hqr : q.1 = r := by
      have := (List.mem_filter.mp hq).2
      simpa using this
    simp [hqr]

/-- C7: every exported CSR matrix satisfies the layout invariants:
`row_offsets` has length `rows + 1`, starts at 0 and is monotonically
non-decreasing; `col_indices` and `values` both have length equal to the
nonzero count (so they are aligned); within each row's slice the column
indices are strictly increasing; and in the diagonal-first variant the row's
own diagonal entry occupies the first slot of that row's slice. -/
theorem copyAssembledCSRMatrixToHost_invariants [AddCommMonoid V] (r0 : Int)
    (n : Nat) (es : List (CooEntry V))
    (hdiag : ∀ p ∈ assemble r0 n es, p.1 ∈ p.2.map Prod.fst) :
    (copyAssembledCSRMatrixToHost (assemble r0 n es)).row_offsets.length
       = n + 1 ∧
    (copyAssembledCSRMatrixToHost (assemble r0 n es)).row_offsets.head?
       = some 0 ∧
    List.Sorted (· ≤ ·)
      (copyAssembledCSRMatrixToHost (assemble r0 n es)).row_offsets ∧
    (copyAssembledCSRMatrixToHost (assemble r0 n es)).col_indices.length
       = getNumNonzeros (assemble r0 n es) ∧
    (copyAssembledCSRMatrixToHost (assemble r0 n es)).values.length
       = getNumNonzeros (assemble r0 n es) ∧
    (∀ p ∈ assemble r0 n es, List.Sorted (· < ·) (p.2.map Prod.fst)) ∧
    (∀ p ∈ reorderDLU (assemble r0 n es),
       (p.2.map Prod.fst).head? = some p.1) := by
  refine ⟨?_, ?_, ?_, rfl, ?_, ?_, ?_⟩
  · show (List.scanl _ 0 _).length = n + 1
    rw [List.length_scanl, List.length_map]
    rw [assemble, List.length_map]
    rw [rowList, List.length_map, List.length_range]
  · show (List.scanl _ 0 _).head? = some 0
    cases h : (assemble r0 n es).map (fun p => p.2.length) with
    | nil => simp [List.scanl_nil]
    | cons a l => simp [List.scanl_cons]
  · exact sorted_scanl_add 0 _
  · show ((assemble r0 n es).map (fun p => p.2.map Prod.snd)).flatten.length
      = (copyAssembledCSRMatrixToHost (assemble r0 n es)).col_indices.length
    show _ = ((assemble r0 n es).map (fun p => p.2.map Prod.fst)).flatten.length
    rw [List.length_flatten, List.length_flatten, List.map_map, List.map_map]
    congr 1
    apply List.map_congr_left
    intro p _
    simp
  · intro p hp
    obtain ⟨r, _, rfl⟩ := List.mem_map.mp hp
    rw [assembleRow_cols_eq]
    exact rowCols_sorted_lt es r
  · intro p hp
    obtain ⟨q, hq, rfl⟩ := List.mem_map.mp hp
    exact reorderDLUrow_head (hdiag q hq)

/-- Witness for C7 on a concrete two-row assembly with diagonal entries in
both rows. -/
theorem copyAssembledCSRMatrixToHost_invariants_witness :
    (copyAssembledCSRMatrixToHost (assemble 0 2
        [⟨0, 0, (1 : Int)⟩, ⟨0, 1, 2⟩, ⟨1, 1, 3⟩])).row_offsets.length = 3 ∧
    (copyAssembledCSRMatrixToHost (assemble 0 2
        [⟨0, 0, (1 : Int)⟩, ⟨0, 1, 2⟩, ⟨1, 1, 3⟩])).row_offsets.head?
      = some 0 ∧
    (∀ p ∈ reorderDLU (assemble 0 2
        [⟨0, 0, (1 : Int)⟩, ⟨0, 1, 2⟩, ⟨1, 1, 3⟩]),
       (p.2.map Prod.fst).head? = some p.1) := by
  have h := copyAssembledCSRMatrixToHost_invariants 0 2
    [⟨0, 0, (1 : Int)⟩, ⟨0, 1, 2⟩, ⟨1, 1, 3⟩] (by decide)
  exact ⟨h.1, h.2.1, h.2.2.2.2.2.2⟩

theorem rowList_nodup (r0 : Int) (n : Nat) : (rowList r0 n).Nodup := by
  unfold rowList
  refine List.Nodup.map ?_ (List.nodup_range n)
  intro a b hab
  have h : r0 + (a : Int) = r0 + (b : Int) := hab
  omega

theorem getNumNonzeros_sum_rows [AddCommMonoid V] (r0 : Int) (n : Nat)
    (es : List (CooEntry V)) :
    getNumNonzeros (assemble r0 n es)
      = ((rowList r0 n).map (fun r => (rowCols es r).length)).sum := by
  unfold getNumNonzeros copyAssembledCSRMatrixToHost
  rw [List.length_flatten, List.map_map]
  unfold assemble
  rw [List.map_map]
  congr 1
  apply List.map_congr_left
  intro r _
  simp [assembleRow]

theorem rowCols_length_card [AddCommMonoid V] (es : List (CooEntry V))
    (r : Int) :
    (rowCols es r).length = ((rowEntries es r).map CooEntry.col).toFinset.card := by
  rw [List.card_toFinset]
  exact (List.perm_insertionSort _ _).length_eq

/-- C4: `getNumNonzeros` after assembly returns exactly the number of
distinct `(row, col)` pairs present in the ingested entries, i.e. the length
of the deduplicated `col_indices` / `values` arrays. -/
theorem getNumNonzeros_eq_card_distinct_pairs [AddCommMonoid V]
    (r0 : Int) (n : Nat) (es : List (CooEntry V))
    (hin : ∀ e ∈ es, e.row ∈ rowList r0 n) :
    getNumNonzeros (assemble r0 n es)
      = (es.map (fun e => (e.row, e.col))).dedup.length := by
  have hmem : ∀ p ∈ (es.map (fun e => (e.row, e.col))).toFinset,
      Prod.fst p ∈ (rowList r0 n).toFinset := by
    intro p hp
    rw [List.mem_toFinset] at hp ⊢
    obtain ⟨e, he, rfl⟩ := List.mem_map.mp hp
    exact hin e he
  have hfiber : ∀ r : Int,
      ((es.map (fun e => (e.row, e.col))).toFinset.filter
        (fun p => p.1 = r)).card
      = ((rowEntries es r).map CooEntry.col).toFinset.card := by
    intro r
    have himg : (es.map (fun e => (e.row, e.col))).toFinset.filter
        (fun p => p.1 = r)
        = ((rowEntries es r).map CooEntry.col).toFinset.image
            (fun c => (r, c)) := by
      ext p
      simp only [Finset.mem_filter, Finset.mem_image, List.mem_toFinset,
        List.mem_map, rowEntries, List.mem_filter, beq_iff_eq]
      constructor
      · rintro ⟨⟨e, he, rfl⟩, hr⟩
        exact ⟨e.col, ⟨e, ⟨he, hr⟩, rfl⟩, by rw [← hr]⟩
      · rintro ⟨c, ⟨e, ⟨he, her⟩, rfl⟩, rfl⟩
        exact ⟨⟨e, he, by rw [her]⟩, rfl⟩
    rw [himg, Finset.card_image_of_injective _
      (fun c₁ c₂ h => congrArg Prod.snd h)]
  rw [getNumNonzeros_sum_rows]
  have h1 : ((rowList r0 n).map (fun r => (rowCols es r).length)).sum
      = ((rowList r0 n).map
          (fun r => ((rowEntries es r).map CooEntry.col).toFinset.card)).sum := by
    congr 1
    exact List.map_congr_left (fun r _ => rowCols_length_card es r)
  rw [h1, ← List.sum_toFinset _ (rowList_nodup r0 n), ← List.card_toFinset,
    Finset.card_eq_sum_card_fiberwise hmem]
  exact Finset.sum_congr rfl (fun r _ => (hfiber r).symm)

/-- Witness for C4: the three ingested entries of the spec's example have two
distinct `(row, col)` pairs, and `getNumNonzeros` reports 2. -/
theorem getNumNonzeros_eq_card_distinct_pairs_witness :
    getNumNonzeros (assemble 0 1 [⟨0, 0, (1 : Int)⟩, ⟨0, 1, 2⟩, ⟨0, 0, 3⟩])
      = (([⟨0, 0, (1 : Int)⟩, ⟨0, 1, 2⟩, ⟨0, 0, 3⟩] : List (CooEntry Int)).map
          (fun e => (e.row, e.col))).dedup.length ∧
    getNumNonzeros (assemble 0 1 [⟨0, 0, (1 : Int)⟩, ⟨0, 1, 2⟩, ⟨0, 0, 3⟩]) = 2 :=
  ⟨getNumNonzeros_eq_card_distinct_pairs 0 1 _ (by decide), by decide⟩

/-- The device-side accumulation lists plus claimed-slot counters of
`HypreLinSysCoeffApplier`: the `rows_` / `cols_` / `vals_` coordinate lists
for the matrix, the `rhs_rows_` / `rhs_vals_` lists for the right-hand side,
and the atomically incremented counts of claimed slots. -/
structure BufferState (V : Type) where
  rows_ : List Int
  cols_ : List Int
  vals_ : List V
  rhs_rows_ : List Int
  rhs_vals_ : List V
  matCount : Nat
  rhsCount : Nat
deriving DecidableEq, Repr

/-- Modelled from the spec: the handling of one entity (one target row) inside
`HypreLinSysCoeffApplier::sum_into` (whose body is not in the repository
sources).  A contribution is `(target row, dense lhs row block, rhs value)`;
the columns of the block are the row ids of all entities of the call.  If
skip-checking is enabled (`checkSkippedRows_`) and the target row is in
`skippedRowsMap_`, the contribution is dropped: nothing is buffered and no
slot is claimed or counted; otherwise the row block and rhs value are appended
to the lists and the claimed-slot counts advance. -/
def sumIntoStep (checkSkippedRows : Bool) (skippedRows : List Int)
    (colIds : List Int) (st : BufferState V) (contrib : Int × List V × V) :
    BufferState V :=
  if checkSkippedRows = true ∧ contrib.1 ∈ skippedRows then st
  else
    { rows_ := st.rows_ ++ colIds.map (fun _ => contrib.1)
      cols_ := st.cols_ ++ colIds
      vals_ := st.vals_ ++ contrib.2.1
      rhs_rows_ := st.rhs_rows_ ++ [contrib.1]
      rhs_vals_ := st.rhs_vals_ ++ [contrib.2.2]
      matCount := st.matCount + colIds.length
      rhsCount := st.rhsCount + 1 }

/-- Modelled from the spec: `HypreLinSysCoeffApplier::sum_into` — one
contribution call over `rowIds` target entities with dense local blocks `lhs`
(one row block per entity) and `rhs` (one value per entity), applied to the
accumulation state `st`. -/
def sum_into (checkSkippedRows : Bool) (skippedRows : List Int)
    (rowIds : List Int) (lhs : List (List V)) (rhs : List V)
    (st : BufferState V) : BufferState V :=
  (rowIds.zip (lhs.zip rhs)).foldl
    (sumIntoStep checkSkippedRows skippedRows rowIds) st

theorem foldl_sumIntoStep_filter (skippedRows colIds : List Int)
    (ts : List (Int × List V × V)) (st : BufferState V) :
    ts.foldl (sumIntoStep true skippedRows colIds) st
      = (ts.filter (fun t => decide (t.1 ∉ skippedRows))).foldl
          (sumIntoStep true skippedRows colIds) st := by
  induction ts generalizing st with
  | nil => rfl
  | cons t ts ih =>
    by_cases h : t.1 ∈ skippedRows
    · have hstep : sumIntoStep true skippedRows colIds st t = st := by
        unfold sumIntoStep
        rw [if_pos ⟨rfl, h⟩]
      rw [List.foldl_cons, hstep, List.filter_cons_of_neg (by simp [h]), ih]
    · rw [List.foldl_cons, List.filter_cons_of_pos (by simp [h]),
        List.foldl_cons, ih]

/-- C3: with skip-checking enabled, every contribution whose target row is in
the skipped-row set is silently dropped by `sum_into`: the call behaves
exactly as if only the non-skipped contributions had been made, and a call
all of whose target rows are skipped leaves the accumulated matrix and rhs
lists and the claimed-slot counts completely unchanged. -/
theorem sum_into_drops_skipped_rows (skippedRows rowIds : List Int)
    (lhs : List (List V)) (rhs : List V) (st : BufferState V) :
    sum_into true skippedRows rowIds lhs rhs st
      = ((rowIds.zip (lhs.zip rhs)).filter
          (fun t => decide (t.1 ∉ skippedRows))).foldl
            (sumIntoStep true skippedRows rowIds) st ∧
    ((∀ r ∈ rowIds, r ∈ skippedRows) →
      sum_into true skippedRows rowIds lhs rhs st = st) := by
  constructor
  · exact foldl_sumIntoStep_filter skippedRows rowIds _ st
  · intro hall
    unfold sum_into
    rw [foldl_sumIntoStep_filter]
    have hnil : (rowIds.zip (lhs.zip rhs)).filter
        (fun t => decide (t.1 ∉ skippedRows)) = [] := by
      rw [List.filter_eq_nil_iff]
      intro t ht
      have : t.1 ∈ rowIds := (List.of_mem_zip ht).1
      simp [hall t.1 this]
    rw [hnil, List.foldl_nil]

/-- Witness for C3: a call targeting only the Dirichlet row 5 with
skip-checking on leaves an empty accumulation state untouched. -/
theorem sum_into_drops_skipped_rows_witness :
    sum_into true [5] [5] [[(1 : Int)]] [7] ⟨[], [], [], [], [], 0, 0⟩
      = ⟨[], [], [], [], [], 0, 0⟩ :=
  (sum_into_drops_skipped_rows [5] [5] [[(1 : Int)]] [7]
    ⟨[], [], [], [], [], 0, 0⟩).2 (by decide)

/-- The error taxonomy of the assembly layer; `capacity` is the fatal
condition raised when a partition or assembler buffer would receive more
entries than its configured bound. -/
inductive AssembleError : Type where
  | capacity : AssembleError
deriving DecidableEq, Repr

/-- One fixed-capacity partition of the entry buffer: the atomically
incremented fill counter (`partition_node_count_`) together with the
configured capacity bound (from `partition_node_start_` /
`numMatPtsToAssembleTotal_` sizing). -/
structure Partition where
  count : Nat
  capacity : Nat
deriving DecidableEq, Repr

/-- Modelled from the spec: `claimSlot` — the atomic fetch-and-increment that
hands one buffer position to a contributing task, bounded by the partition's
capacity; exceeding the bound is the fatal `capacity` error, never a silent
truncation. -/
def claimSlot (p : Partition) : Except AssembleError (Nat × Partition) :=
  if p.count < p.capacity then
    Except.ok (p.count, ⟨p.count + 1, p.capacity⟩)
  else
    Except.error AssembleError.capacity

/-- A linearized trace of `n` slot claims by concurrent tasks: since the claim
operation is a single atomic fetch-and-increment, every concurrent execution
is equivalent to some sequential order of the `claimSlot` calls. -/
def claimSlots : Nat → Partition → Except AssembleError (List Nat × Partition)
  | 0, p => Except.ok ([], p)
  | Nat.succ n, p =>
    match claimSlot p with
    | Except.error e => Except.error e
    | Except.ok (pos, p₁) =>
      match claimSlots n p₁ with
      | Except.error e => Except.error e
      | Except.ok (ps, p₂) => Except.ok (pos :: ps, p₂)

theorem claimSlots_ok {n : Nat} {p : Partition}
    (h : p.count + n ≤ p.capacity) :
    claimSlots n p
      = Except.ok (List.range' p.count n, ⟨p.count + n, p.capacity⟩) := by
  induction n generalizing p with
  | zero =>
    cases p
    simp [claimSlots, List.range']
  | succ n ih =>
    have hc : p.count < p.capacity := by omega
    have hrec := ih (p := ⟨p.count + 1, p.capacity⟩) (by simp; omega)
    simp only [claimSlots, claimSlot, if_pos hc, hrec, List.range'_succ]
    have h2 : p.count + 1 + n = p.count + (n + 1) := by omega
    rw [h2]

theorem claimSlots_overflow {n : Nat} {p : Partition}
    (h : p.capacity < p.count + n) (hn : 0 < n) :
    claimSlots n p = Except.error AssembleError.capacity := by
  induction n generalizing p with
  | zero => omega
  | succ n ih =>
    by_cases hc : p.count < p.capacity
    · have hn' : 0 < n := by omega
      have hrec := ih (p := ⟨p.count + 1, p.capacity⟩) (by simp; omega) hn'
      simp only [claimSlots, claimSlot, if_pos hc, hrec]
    · simp only [claimSlots, claimSlot, if_neg hc]

/-- C5: a partition buffer asked for more entries than its configured
capacity raises the fatal `capacity` error — already the single claim that
first exceeds the bound fails — and any request within the bound keeps every
entry (the full contiguous slot range is handed out, nothing is truncated or
discarded). -/
theorem capacity_overflow_fatal (cap n : Nat) (h : cap < n) :
    claimSlots n ⟨0, cap⟩ = Except.error AssembleError.capacity ∧
    claimSlot ⟨cap, cap⟩ = Except.error AssembleError.capacity ∧
    (∀ m, m ≤ cap →
      claimSlots m ⟨0, cap⟩ = Except.ok (List.range' 0 m, ⟨m, cap⟩)) := by
  refine ⟨claimSlots_overflow (by simpa using h) (by omega), ?_, ?_⟩
  · unfold claimSlot
    rw [if_neg (by simp)]
  · intro m hm
    have := claimSlots_ok (n := m) (p := ⟨0, cap⟩) (by simpa using hm)
    simpa using this

/-- Witness for C5: with capacity 1, two claims abort with the `capacity`
error while a single claim succeeds and keeps its entry at position 0. -/
theorem capacity_overflow_fatal_witness :
    claimSlots 2 ⟨0, 1⟩ = Except.error AssembleError.capacity ∧
    claimSlots 1 ⟨0, 1⟩ = Except.ok ([0], ⟨1, 1⟩) :=
  ⟨(capacity_overflow_fatal 1 2 (by decide)).1,
   (capacity_overflow_fatal 1 2 (by decide)).2.2 1 (by decide)⟩

/-- C6: in any linearized trace of concurrent claim calls on one partition,
no two calls return the same position, no returned position reaches the
configured capacity, and a trace that would exceed the capacity triggers the
fatal `capacity` error instead. -/
theorem claimSlots_distinct_bounded (p : Partition) (n : Nat) :
    (∀ ps p', claimSlots n p = Except.ok (ps, p') →
       ps.Nodup ∧ ∀ x ∈ ps, x < p.capacity) ∧
    (p.capacity < p.count + n → 0 < n →
       claimSlots n p = Except.error AssembleError.capacity) := by
  constructor
  · intro ps p' hok
    by_cases hn : 0 < n
    · by_cases hcap : p.count + n ≤ p.capacity
      · rw [claimSlots_ok hcap] at hok
        have hps : ps = List.range' p.count n := by
          injection hok with h1
          exact (((Prod.mk.injEq _ _ _ _).mp h1).1).symm
        subst hps
        refine ⟨List.nodup_range' _ _, ?_⟩
        intro x hx
        rw [List.mem_range'] at hx
        obtain ⟨i, hi, rfl⟩ := hx
        omega
      · exact absurd hok (by rw [claimSlots_overflow (by omega) hn]; simp)
    · have hn0 : n = 0 := by omega
      subst hn0
      have hps : ps = [] := by
        injection hok with h1
        exact (((Prod.mk.injEq _ _ _ _).mp h1).1).symm
      subst hps
      exact ⟨List.nodup_nil, by simp⟩
  · exact fun hover hn => claimSlots_overflow hover hn

/-- Witness for C6: two claims from a fresh partition of capacity 2 return the
distinct in-bound positions `[0, 1]`. -/
theorem claimSlots_distinct_bounded_witness :
    ([0, 1] : List Nat).Nodup ∧ ∀ x ∈ ([0, 1] : List Nat), x < 2 :=
  (claimSlots_distinct_bounded ⟨0, 2⟩ 2).1 [0, 1] ⟨2, 2⟩ rfl

/-- The element-count bookkeeping of `HypreLinearSystem`: `partitionCount_`
(number of entities touched per partition) and `count_` (maximum number of
contribution writes per invocation for that partition). -/
structure HypreLinearSystemCounts where
  partitionCount_ : List Int
  count_ : List Int
deriving DecidableEq, Repr

/-- Embedded from `HypreLinearSystem::numDataPtsToAssemble` (HypreLinearSystem.h, lines
98-104): the loop `for i in [0, partitionCount_.size()):
n += partitionCount_[i] * count_[i]` with accumulator starting at 0.
Out-of-range accesses (absent in the C++ contract, where the two vectors are
sized together) are modelled as 0. -/
def numDataPtsToAssemble (s : HypreLinearSystemCounts) : Int :=
  (List.range s.partitionCount_.length).foldl
    (fun n i => n + s.partitionCount_.getD i 0 * s.count_.getD i 0) 0

theorem foldl_add_eq_sum (f : Nat → Int) (l : List Nat) (a : Int) :
    l.foldl (fun n i => n + f i) a = a + (l.map f).sum := by
  induction l generalizing a with
  | nil => simp
  | cons x l ih => rw [List.foldl_cons, List.map_cons, List.sum_cons, ih]; ring

theorem range_map_getD_prod (pc c : List Int) (h : pc.length ≤ c.length) :
    (List.range pc.length).map (fun i => pc.getD i 0 * c.getD i 0)
      = (pc.zip c).map (fun p => p.1 * p.2) := by
  induction pc generalizing c with
  | nil => simp
  | cons x pc ih =>
    cases c with
    | nil => simp at h
    | cons y c =>
      rw [List.length_cons, List.range_succ_eq_map, List.map_cons,
        List.map_map, List.zip_cons_cons, List.map_cons]
      simp only [List.getD_cons_zero, List.getD_cons_succ, Function.comp_def]
      have h' : pc.length ≤ c.length := by
        simp only [List.length_cons] at h
        omega
      rw [ih c h']

/-- C8: `numDataPtsToAssemble` returns the capacity upper bound: the sum over
the partitions of `partitionCount_[i] * count_[i]`, whenever `count_` is at
least as long as `partitionCount_` (in the C++ contract the two vectors are
sized together). -/
theorem numDataPtsToAssemble_eq_sum (s : HypreLinearSystemCounts)
    (h : s.partitionCount_.length ≤ s.count_.length) :
    numDataPtsToAssemble s
      = ((s.partitionCount_.zip s.count_).map (fun p => p.1 * p.2)).sum := by
  unfold numDataPtsToAssemble
  rw [foldl_add_eq_sum, range_map_getD_prod _ _ h]
  ring

/-- Witness for C8: with `partitionCount_ = [2, 3]` and `count_ = [4, 5]` the
bound is `2*4 + 3*5 = 23`. -/
theorem numDataPtsToAssemble_eq_sum_witness :
    numDataPtsToAssemble ⟨[2, 3], [4, 5]⟩
      = ((([2, 3] : List Int).zip ([4, 5] : List Int)).map
          (fun p => p.1 * p.2)).sum ∧
    numDataPtsToAssemble ⟨[2, 3], [4, 5]⟩ = 23 :=
  ⟨numDataPtsToAssemble_eq_sum ⟨[2, 3], [4, 5]⟩ (by decide), by decide⟩

/-- The state of the `MemoryController` scratch allocation: `allocatedN` is
the common size `_N` of the shared scratch buffers (`_d_bin_ptrs`,
`_d_locations`, `_d_temp`, `_d_bin_block_count`), `allocated` whether they are
currently live on the device. -/
structure MemControllerState where
  allocatedN : Nat
  allocated : Bool
deriving DecidableEq, Repr

/-- Modelled from the spec: one acquire request against the Memory
Controller — the scratch buffers are (re)sized to the maximum of the current
size and the requested capacity hint (grow-only, no shrink); the
`MemoryController` constructor body is not in the repository sources. -/
def acquire (mc : MemControllerState) (capacityHint : Nat) :
    MemControllerState :=
  { allocatedN := max mc.allocatedN capacityHint, allocated := true }

/-- The controller state after a whole sequence of acquire requests. -/
def acquireAll (mc : MemControllerState) (reqs : List Nat) :
    MemControllerState :=
  reqs.foldl acquire mc

/-- Modelled from the spec: tearing down a Matrix/Rhs assembler releases none
of the shared scratch buffers — the assemblers only borrow the pointers
handed to them via `setTemporaryDataArrayPtrs`. -/
def assemblerTeardown (mc : MemControllerState) : MemControllerState := mc

/-- Modelled from the spec: the Memory Controller's own teardown
(`~MemoryController`) deallocates the scratch buffers. -/
def memControllerTeardown : MemControllerState :=
  { allocatedN := 0, allocated := false }

theorem acquireAll_allocatedN (mc : MemControllerState) (reqs : List Nat) :
    (acquireAll mc reqs).allocatedN
      = max mc.allocatedN (reqs.foldr max 0) := by
  induction reqs generalizing mc with
  | nil => simp [acquireAll]
  | cons r reqs ih =>
    show (acquireAll (acquire mc r) reqs).allocatedN = _
    rw [ih]
    simp only [acquire, List.foldr_cons]
    omega

/-- C9: across any sequence of acquire requests the Memory Controller's
scratch buffers are sized to the maximum of all capacity requests seen so
far; the allocated size never decreases when further requests arrive
(grow-only, no shrink); every request is satisfied by the current size; and
at teardown it is the controller, not the attached assemblers, that
deallocates the buffers. -/
theorem memController_grow_only (mc : MemControllerState)
    (reqs extra : List Nat) :
    (acquireAll mc reqs).allocatedN
      = max mc.allocatedN (reqs.foldr max 0) ∧
    (acquireAll mc reqs).allocatedN
      ≤ (acquireAll mc (reqs ++ extra)).allocatedN ∧
    (∀ r ∈ reqs, r ≤ (acquireAll mc reqs).allocatedN) ∧
    assemblerTeardown (acquireAll mc reqs) = acquireAll mc reqs ∧
    memControllerTeardown.allocated = false := by
  refine ⟨acquireAll_allocatedN mc reqs, ?_, ?_, rfl, rfl⟩
  · rw [acquireAll_allocatedN, acquireAll_allocatedN]
    have : reqs.foldr max 0 ≤ (reqs ++ extra).foldr max 0 := by
      induction reqs with
      | nil => simp
      | cons r reqs ih => simp only [List.cons_append, List.foldr_cons]; omega
    omega
  · intro r hr
    rw [acquireAll_allocatedN]
    have : r ≤ reqs.foldr max 0 := by
      induction reqs with
      | nil => exact absurd hr (List.not_mem_nil r)
      | cons x reqs ih =>
        rcases List.mem_cons.mp hr with rfl | hmem
        · simp only [List.foldr_cons]; omega
        · have := ih hmem
          simp only [List.foldr_cons]
          omega
    omega

/-- Witness for C9: after requests of 3, 1 and 2 the buffers are sized to 3,
every request fits, and only the controller teardown frees them. -/
theorem memController_grow_only_witness :
    (acquireAll ⟨0, false⟩ [3, 1, 2]).allocatedN = max 0 ([3, 1, 2].foldr max 0) ∧
    (3 ≤ (acquireAll ⟨0, false⟩ [3, 1, 2]).allocatedN) ∧
    assemblerTeardown (acquireAll ⟨0, false⟩ [3, 1, 2])
      = acquireAll ⟨0, false⟩ [3, 1, 2] ∧
    memControllerTeardown.allocated = false :=
  ⟨(memController_grow_only ⟨0, false⟩ [3, 1, 2] []).1,
   (memController_grow_only ⟨0, false⟩ [3, 1, 2] []).2.2.1 3 (by decide),
   (memController_grow_only ⟨0, false⟩ [3, 1, 2] []).2.2.2.1,
   (memController_grow_only ⟨0, false⟩ [3, 1, 2] []).2.2.2.2⟩

/-- The observable state of a `HypreUVWLinearSystem`
(src/include/HypreUVWLinearSystem.h): the `numDof` constructor argument and
the `const int nDim_{3}` member (line 128). -/
structure HypreUVWLinearSystem where
  numDofArg : Nat
  nDim_ : Int
deriving DecidableEq, Repr

/-- The `HypreUVWLinearSystem` constructor (declared lines 26-30): it receives
`numDof`, and `nDim_` carries its in-class initializer 3 — `nDim_` is `const`
and no code assigns it. -/
def mkHypreUVWLinearSystem (numDof : Nat) : HypreUVWLinearSystem :=
  { numDofArg := numDof, nDim_ := 3 }

/-- Embedded from `HypreUVWLinearSystem::numDof` (line 109): `return nDim_;`. -/
def HypreUVWLinearSystem.numDof (s : HypreUVWLinearSystem) : Int :=
  s.nDim_

/-- C10: `numDof()` of a `HypreUVWLinearSystem` returns 3 (the fixed member
`nDim_`) for every constructor argument; the argument never influences the
reported value. -/
theorem hypreUVW_numDof_is_three (n m : Nat) :
    (mkHypreUVWLinearSystem n).numDof = 3 ∧
    (mkHypreUVWLinearSystem n).numDof = (mkHypreUVWLinearSystem m).numDof :=
  ⟨rfl, rfl⟩

end NaluWind

